import Mathlib

/-!
Angle normalisation (`shared/src/AngleUtils.h`) and the capture flags of
`controller::ScriptingInterface`.

A shallow embedding of the three templates of `AngleUtils.h`
(`angleSignedNormal`, `angleUnsignedNormal`, `angleHorizontalPolar`) and of the
three unit structs (`Degrees`, `Radians`, `Rotations`), followed by the four
capture flags of `ScriptingInterface.h` with their capture, release and query
methods.

Angles are rationals: every finite `float` is a rational, and the constants the
unit structs return are given by their exact single-precision values.  The
C library `remainder` is an exact operation (IEEE 754 defines its result as the
real number `x - n * y`, which is always representable), so it is modelled
without rounding.  The `float` additions and subtractions do round; they are
modelled with an explicit rounding function selected by an arithmetic mode:
`Arith.exact` (no rounding) or `Arith.binary32` (round to nearest, ties to
even, 24-bit significand).
-/

/-! ## Unit systems -/

/-- The three unit structs `Degrees`, `Radians`, `Rotations`, used as the template
argument `Unit`. -/
inductive AngleUnit where
  | Degrees
  | Radians
  | Rotations
deriving DecidableEq, Repr

namespace AngleUnit

/-- The value of `Unit::pi()`: `180.0f`, `3.141592653589793f`, `0.5f`.  The single-precision
value of the radian literal is `0x40490FDB = 13176795 / 2^22`. -/
def pi : AngleUnit → ℚ
  | Degrees => 180
  | Radians => 13176795 / 4194304
  | Rotations => 1 / 2

/-- The value of `Unit::twice_pi()`: `360.0f`, `6.283185307179586f`, `1.0f`.  The
single-precision value of the radian literal is `0x40C90FDB = 13176795 / 2^21`. -/
def twice_pi : AngleUnit → ℚ
  | Degrees => 360
  | Radians => 13176795 / 2097152
  | Rotations => 1

/-- The value of `Unit::half_pi()`: `90.0f`, `1.5707963267948966` narrowed to `float`,
`0.25f`.  The narrowed radian value is `0x3FC90FDB = 13176795 / 2^23`. -/
def half_pi : AngleUnit → ℚ
  | Degrees => 90
  | Radians => 13176795 / 8388608
  | Rotations => 1 / 4

end AngleUnit

/-! ## Arithmetic -/

/-- The integer nearest to `q`, ties going to the even neighbour. -/
def roundHalfEven (q : ℚ) : ℤ :=
  let f := ⌊q⌋
  if q - f < 1 / 2 then f
  else if 1 / 2 < q - f then f + 1
  else if f % 2 = 0 then f else f + 1

/-- The C library function `remainder(x, y)` for finite `x` and finite non-zero `y`:
`x - n * y`, where `n` is the integer nearest to the exact quotient `x / y`, ties to even.
The operation is exact in IEEE arithmetic. -/
def remainder (x y : ℚ) : ℚ :=
  x - (roundHalfEven (x / y) : ℚ) * y

/-- Rounding of a real result to single precision (binary32): round to nearest, ties to
even, with a 24-bit significand and gradual underflow below `2^-126`.  Overflow to
infinity is not represented; it cannot happen in the functions below when their
arguments are finite floats. -/
def roundSingle (q : ℚ) : ℚ :=
  if q = 0 then 0
  else
    let e := max (Int.log 2 |q|) (-126)
    let ulp : ℚ := 2 ^ (e - 23)
    (roundHalfEven (q / ulp) : ℚ) * ulp

/-- How the results of `float` additions and subtractions are obtained: exactly, or
rounded to single precision as the compiled code does. -/
inductive Arith where
  | exact
  | binary32
deriving DecidableEq, Repr

/-- The rounding applied to the exact result of an addition or subtraction. -/
def Arith.rnd : Arith → ℚ → ℚ
  | Arith.exact, q => q
  | Arith.binary32, q => roundSingle q

/-! ## The functions of `AngleUtils.h` -/

/-- The template `angleSignedNormal<Unit>(a)`:
`result = remainder(a, Unit::twice_pi()); if (result == Unit::pi()) result = -Unit::pi();` -/
def angleSignedNormal (U : AngleUnit) (a : ℚ) : ℚ :=
  let result := remainder a U.twice_pi
  if result = U.pi then -U.pi else result

/-- The template `angleUnsignedNormal<Unit>(a)`:
`return angleSignedNormal<Unit>(a - Unit::pi()) + Unit::pi();` -/
def angleUnsignedNormal (m : Arith) (U : AngleUnit) (a : ℚ) : ℚ :=
  m.rnd (angleSignedNormal U (m.rnd (a - U.pi)) + U.pi)

/-- The template `angleHorizontalPolar<Unit>(azimuth, altitude)`.  The two reference
parameters are returned as the pair `(azimuth, altitude)`. -/
def angleHorizontalPolar (m : Arith) (U : AngleUnit) (azimuth altitude : ℚ) : ℚ × ℚ :=
  let altitude := angleSignedNormal U altitude
  if altitude > U.half_pi then
    (angleUnsignedNormal m U (-azimuth), m.rnd (U.pi - altitude))
  else if altitude < -U.half_pi then
    (angleUnsignedNormal m U (-azimuth), m.rnd (-U.pi - altitude))
  else
    (angleUnsignedNormal m U azimuth, altitude)

/-! ## Directions on the sphere -/

/-- The polar pairs `(az, alt)` and `(az', alt')`, angles in the unit `U`, denote the same
direction: after conversion to radians the unit vector
`(cos alt * cos az, cos alt * sin az, sin alt)` is the same for both. -/
def SameDirection (U : AngleUnit) (az alt az' alt' : ℚ) : Prop :=
  let c : ℝ := match U with
    | AngleUnit.Degrees => Real.pi / 180
    | AngleUnit.Radians => 1
    | AngleUnit.Rotations => 2 * Real.pi
  Real.cos (alt * c) * Real.cos (az * c) = Real.cos (alt' * c) * Real.cos (az' * c) ∧
  Real.cos (alt * c) * Real.sin (az * c) = Real.cos (alt' * c) * Real.sin (az' * c) ∧
  Real.sin (alt * c) = Real.sin (alt' * c)

/-- Rounding of a real value to double precision (binary64): round to nearest, ties to
even, with a 53-bit significand.  It gives the value of a decimal literal without the `f`
suffix, such as the `1.5707963267948966` of `Radians::half_pi()`. -/
def roundDouble (q : ℚ) : ℚ :=
  if q = 0 then 0
  else
    let e := max (Int.log 2 |q|) (-1022)
    let ulp : ℚ := 2 ^ (e - 52)
    (roundHalfEven (q / ulp) : ℚ) * ulp

/-- The polar normalisation as the specification words it: the altitude is normalised to
the signed range; past the north pole it is reflected to `pi() - altitude`, past the south
pole to `-pi() - altitude`, and in both cases the azimuth is negated; finally the azimuth is
normalised to the unsigned range. -/
def normalizePolar (m : Arith) (U : AngleUnit) (azimuth altitude : ℚ) : ℚ × ℚ :=
  let s := angleSignedNormal U altitude
  let north : Bool := decide (s > U.half_pi)
  let south : Bool := decide (s < -U.half_pi)
  let altitude' := if north then m.rnd (U.pi - s) else if south then m.rnd (-U.pi - s) else s
  let azimuth' := if north || south then -azimuth else azimuth
  (angleUnsignedNormal m U azimuth', altitude')

/-! ## The capture flags of `controller::ScriptingInterface` -/

/-- The four members `_mouseCaptured`, `_touchCaptured`, `_wheelCaptured`,
`_actionsCaptured` of `controller::ScriptingInterface`.  They are `std::atomic<bool>`; every
method below is a single atomic load or store, so a history of calls is a sequence. -/
structure ScriptingInterface where
  _mouseCaptured : Bool
  _touchCaptured : Bool
  _wheelCaptured : Bool
  _actionsCaptured : Bool
deriving DecidableEq, Repr

namespace ScriptingInterface

/-- The member initialisers: `_mouseCaptured{ false }` and likewise for the other three. -/
def init : ScriptingInterface := ⟨false, false, false, false⟩

/-- The method `bool isMouseCaptured() const { return _mouseCaptured; }`. -/
def isMouseCaptured (s : ScriptingInterface) : Bool := s._mouseCaptured

/-- The method `bool isTouchCaptured() const { return _touchCaptured; }`. -/
def isTouchCaptured (s : ScriptingInterface) : Bool := s._touchCaptured

/-- The method `bool isWheelCaptured() const { return _wheelCaptured; }`. -/
def isWheelCaptured (s : ScriptingInterface) : Bool := s._wheelCaptured

/-- The method `bool areActionsCaptured() const { return _actionsCaptured; }`. -/
def areActionsCaptured (s : ScriptingInterface) : Bool := s._actionsCaptured

/-- The slot `captureMouseEvents() { _mouseCaptured = true; }`. -/
def captureMouseEvents (s : ScriptingInterface) : ScriptingInterface :=
  ⟨true, s._touchCaptured, s._wheelCaptured, s._actionsCaptured⟩

/-- The slot `releaseMouseEvents() { _mouseCaptured = false; }`. -/
def releaseMouseEvents (s : ScriptingInterface) : ScriptingInterface :=
  ⟨false, s._touchCaptured, s._wheelCaptured, s._actionsCaptured⟩

/-- The slot `captureTouchEvents() { _touchCaptured = true; }`. -/
def captureTouchEvents (s : ScriptingInterface) : ScriptingInterface :=
  ⟨s._mouseCaptured, true, s._wheelCaptured, s._actionsCaptured⟩

/-- The slot `releaseTouchEvents() { _touchCaptured = false; }`. -/
def releaseTouchEvents (s : ScriptingInterface) : ScriptingInterface :=
  ⟨s._mouseCaptured, false, s._wheelCaptured, s._actionsCaptured⟩

/-- The slot `captureWheelEvents() { _wheelCaptured = true; }`. -/
def captureWheelEvents (s : ScriptingInterface) : ScriptingInterface :=
  ⟨s._mouseCaptured, s._touchCaptured, true, s._actionsCaptured⟩

/-- The slot `releaseWheelEvents() { _wheelCaptured = false; }`. -/
def releaseWheelEvents (s : ScriptingInterface) : ScriptingInterface :=
  ⟨s._mouseCaptured, s._touchCaptured, false, s._actionsCaptured⟩

/-- The slot `captureActionEvents() { _actionsCaptured = true; }`. -/
def captureActionEvents (s : ScriptingInterface) : ScriptingInterface :=
  ⟨s._mouseCaptured, s._touchCaptured, s._wheelCaptured, true⟩

/-- The slot `releaseActionEvents() { _actionsCaptured = false; }`. -/
def releaseActionEvents (s : ScriptingInterface) : ScriptingInterface :=
  ⟨s._mouseCaptured, s._touchCaptured, s._wheelCaptured, false⟩

end ScriptingInterface

/-- The four kinds of event whose capture is flagged. -/
inductive CaptureFlag where
  | Mouse
  | Touch
  | Wheel
  | Action
deriving DecidableEq, Repr

/-- A call of one of the eight capture or release slots. -/
inductive CaptureCall where
  | captureMouseEvents
  | releaseMouseEvents
  | captureTouchEvents
  | releaseTouchEvents
  | captureWheelEvents
  | releaseWheelEvents
  | captureActionEvents
  | releaseActionEvents
deriving DecidableEq, Repr

/-- The flag a call addresses. -/
def CaptureCall.flag : CaptureCall → CaptureFlag
  | captureMouseEvents => CaptureFlag.Mouse
  | releaseMouseEvents => CaptureFlag.Mouse
  | captureTouchEvents => CaptureFlag.Touch
  | releaseTouchEvents => CaptureFlag.Touch
  | captureWheelEvents => CaptureFlag.Wheel
  | releaseWheelEvents => CaptureFlag.Wheel
  | captureActionEvents => CaptureFlag.Action
  | releaseActionEvents => CaptureFlag.Action

/-- Whether a call is a capture (as opposed to a release). -/
def CaptureCall.isCapture : CaptureCall → Bool
  | captureMouseEvents => true
  | captureTouchEvents => true
  | captureWheelEvents => true
  | captureActionEvents => true
  | releaseMouseEvents => false
  | releaseTouchEvents => false
  | releaseWheelEvents => false
  | releaseActionEvents => false

/-- The effect of one call on the object. -/
def ScriptingInterface.call (s : ScriptingInterface) : CaptureCall → ScriptingInterface
  | CaptureCall.captureMouseEvents => s.captureMouseEvents
  | CaptureCall.releaseMouseEvents => s.releaseMouseEvents
  | CaptureCall.captureTouchEvents => s.captureTouchEvents
  | CaptureCall.releaseTouchEvents => s.releaseTouchEvents
  | CaptureCall.captureWheelEvents => s.captureWheelEvents
  | CaptureCall.releaseWheelEvents => s.releaseWheelEvents
  | CaptureCall.captureActionEvents => s.captureActionEvents
  | CaptureCall.releaseActionEvents => s.releaseActionEvents

/-- The effect of a sequence of calls, the first of the list first. -/
def ScriptingInterface.run (s : ScriptingInterface) (calls : List CaptureCall) :
    ScriptingInterface :=
  calls.foldl ScriptingInterface.call s

/-- What the query method of a flag returns. -/
def ScriptingInterface.captured (s : ScriptingInterface) : CaptureFlag → Bool
  | CaptureFlag.Mouse => s.isMouseCaptured
  | CaptureFlag.Touch => s.isTouchCaptured
  | CaptureFlag.Wheel => s.isWheelCaptured
  | CaptureFlag.Action => s.areActionsCaptured

/-- The last call of a sequence that addresses the flag `f`, if there is one. -/
def lastCallFor (f : CaptureFlag) (calls : List CaptureCall) : Option CaptureCall :=
  (calls.filter (fun c => decide (c.flag = f))).getLast?

/-! ## Facts about the unit constants -/

theorem AngleUnit.pi_pos (U : AngleUnit) : 0 < U.pi := by
  cases U <;> norm_num [AngleUnit.pi]

theorem AngleUnit.twice_pi_eq (U : AngleUnit) : U.twice_pi = 2 * U.pi := by
  cases U <;> norm_num [AngleUnit.pi, AngleUnit.twice_pi]

theorem AngleUnit.half_pi_eq (U : AngleUnit) : U.half_pi = U.pi / 2 := by
  cases U <;> norm_num [AngleUnit.pi, AngleUnit.half_pi]

theorem AngleUnit.twice_pi_pos (U : AngleUnit) : 0 < U.twice_pi := by
  rw [U.twice_pi_eq]; linarith [U.pi_pos]

/-! ## Rounding to the nearest integer -/

theorem roundHalfEven_near (q : ℚ) :
    (roundHalfEven q : ℚ) - 1 / 2 ≤ q ∧ q ≤ (roundHalfEven q : ℚ) + 1 / 2 := by
  have h1 := Int.floor_le q
  have h2 := Int.lt_floor_add_one q
  unfold roundHalfEven
  simp only
  split_ifs <;> push_cast <;> constructor <;> linarith

theorem roundHalfEven_eq_of_near (q : ℚ) (n : ℤ) (hlo : (n : ℚ) - 1 / 2 < q)
    (hhi : q < (n : ℚ) + 1 / 2) : roundHalfEven q = n := by
  obtain ⟨h1, h2⟩ := roundHalfEven_near q
  have h3 : (roundHalfEven q : ℚ) < (n : ℚ) + 1 := by linarith
  have h4 : (n : ℚ) < (roundHalfEven q : ℚ) + 1 := by linarith
  have h5 : roundHalfEven q < n + 1 := by exact_mod_cast h3
  have h6 : n < roundHalfEven q + 1 := by exact_mod_cast h4
  omega

theorem roundHalfEven_tie (n : ℤ) :
    roundHalfEven ((n : ℚ) + 1 / 2) = if n % 2 = 0 then n else n + 1 := by
  have hf : ⌊(n : ℚ) + 1 / 2⌋ = n := by
    rw [Int.floor_eq_iff]; constructor <;> linarith
  unfold roundHalfEven
  simp only [hf]
  have h1 : ¬ ((n : ℚ) + 1 / 2 - (n : ℚ) < 1 / 2) := by
    intro h; linarith
  have h2 : ¬ ((1 : ℚ) / 2 < (n : ℚ) + 1 / 2 - (n : ℚ)) := by
    intro h; linarith
  rw [if_neg h1, if_neg h2]

theorem roundHalfEven_intCast (n : ℤ) : roundHalfEven (n : ℚ) = n :=
  roundHalfEven_eq_of_near _ n (by linarith) (by linarith)

/-! ## The remainder -/

theorem remainder_bounds (x y : ℚ) (hy : 0 < y) :
    -(y / 2) ≤ remainder x y ∧ remainder x y ≤ y / 2 := by
  obtain ⟨h1, h2⟩ := roundHalfEven_near (x / y)
  have hx : x / y * y = x := div_mul_cancel₀ x hy.ne.symm
  have h3 := mul_le_mul_of_nonneg_right h1 hy.le
  have h4 := mul_le_mul_of_nonneg_right h2 hy.le
  rw [hx] at h3 h4
  unfold remainder
  constructor <;> nlinarith

theorem remainder_eq_self (x y : ℚ) (hy : 0 < y) (hlo : -(y / 2) ≤ x) (hhi : x < y / 2) :
    remainder x y = x := by
  have hn : roundHalfEven (x / y) = 0 := by
    rcases eq_or_lt_of_le hlo with h | h
    · have hq : x / y = ((-1 : ℤ) : ℚ) + 1 / 2 := by
        rw [← h]; field_simp; ring
      rw [hq, roundHalfEven_tie]; decide
    · apply roundHalfEven_eq_of_near
      · rw [lt_div_iff₀ hy]; push_cast; linarith
      · rw [div_lt_iff₀ hy]; push_cast; linarith
  unfold remainder
  rw [hn]; simp

/-! ## Signed normalisation in exact terms -/

theorem angleSignedNormal_range (U : AngleUnit) (a : ℚ) :
    -U.pi ≤ angleSignedNormal U a ∧ angleSignedNormal U a < U.pi := by
  obtain ⟨h1, h2⟩ := remainder_bounds a U.twice_pi U.twice_pi_pos
  have hp := U.pi_pos
  rw [U.twice_pi_eq] at h1 h2
  unfold angleSignedNormal
  simp only
  rw [U.twice_pi_eq]
  split_ifs with h
  · constructor <;> linarith
  · constructor
    · linarith
    · exact lt_of_le_of_ne (by linarith) h

theorem angleSignedNormal_congr (U : AngleUnit) (a : ℚ) :
    ∃ k : ℤ, angleSignedNormal U a - a = (k : ℚ) * U.twice_pi := by
  unfold angleSignedNormal
  simp only
  split_ifs with h
  · refine ⟨-(roundHalfEven (a / U.twice_pi)) - 1, ?_⟩
    unfold remainder at h
    push_cast
    rw [U.twice_pi_eq] at h ⊢
    linarith
  · refine ⟨-(roundHalfEven (a / U.twice_pi)), ?_⟩
    unfold remainder
    push_cast
    ring

/-- Two values of `[-pi, pi)` that differ by a whole number of turns are equal. -/
theorem signed_representative_unique (U : AngleUnit) (x y : ℚ) (k : ℤ)
    (hx : -U.pi ≤ x ∧ x < U.pi) (hy : -U.pi ≤ y ∧ y < U.pi)
    (hk : x - y = (k : ℚ) * U.twice_pi) : x = y := by
  have hp := U.pi_pos
  rw [U.twice_pi_eq] at hk
  have h1 : (k : ℚ) < 1 := by
    by_contra hc
    push_neg at hc
    nlinarith
  have h2 : (-1 : ℚ) < (k : ℚ) := by
    by_contra hc
    push_neg at hc
    nlinarith
  have h3 : k < 1 := by exact_mod_cast h1
  have h4 : -1 < k := by exact_mod_cast h2
  have h5 : k = 0 := by omega
  rw [h5] at hk
  simp at hk
  linarith

theorem angleSignedNormal_of_mem (U : AngleUnit) (x : ℚ) (hlo : -U.pi ≤ x) (hhi : x < U.pi) :
    angleSignedNormal U x = x := by
  obtain ⟨k, hk⟩ := angleSignedNormal_congr U x
  exact signed_representative_unique U _ _ k (angleSignedNormal_range U x) ⟨hlo, hhi⟩ hk

theorem angleSignedNormal_period (U : AngleUnit) (a : ℚ) (k : ℤ) :
    angleSignedNormal U (a + (k : ℚ) * U.twice_pi) = angleSignedNormal U a := by
  obtain ⟨i, hi⟩ := angleSignedNormal_congr U (a + (k : ℚ) * U.twice_pi)
  obtain ⟨j, hj⟩ := angleSignedNormal_congr U a
  refine signed_representative_unique U _ _ (i + k - j) (angleSignedNormal_range U _)
    (angleSignedNormal_range U a) ?_
  push_cast
  linarith

/-! ## Unsigned normalisation in exact arithmetic -/

theorem angleUnsignedNormal_exact_range (U : AngleUnit) (a : ℚ) :
    0 ≤ angleUnsignedNormal Arith.exact U a ∧
      angleUnsignedNormal Arith.exact U a < U.twice_pi := by
  obtain ⟨h1, h2⟩ := angleSignedNormal_range U (a - U.pi)
  rw [U.twice_pi_eq]
  simp only [angleUnsignedNormal, Arith.rnd]
  constructor <;> linarith

theorem angleUnsignedNormal_exact_congr (U : AngleUnit) (a : ℚ) :
    ∃ k : ℤ, angleUnsignedNormal Arith.exact U a - a = (k : ℚ) * U.twice_pi := by
  obtain ⟨k, hk⟩ := angleSignedNormal_congr U (a - U.pi)
  refine ⟨k, ?_⟩
  simp only [angleUnsignedNormal, Arith.rnd]
  linarith

/-- When neither the subtraction nor the addition rounds, an angle of `[0, twice_pi)` is
returned as it is. -/
theorem angleUnsignedNormal_of_mem (m : Arith) (U : AngleUnit) (x : ℚ) (hlo : 0 ≤ x)
    (hhi : x < U.twice_pi) (hsub : m.rnd (x - U.pi) = x - U.pi) (hrep : m.rnd x = x) :
    angleUnsignedNormal m U x = x := by
  rw [U.twice_pi_eq] at hhi
  have h : angleSignedNormal U (x - U.pi) = x - U.pi :=
    angleSignedNormal_of_mem U _ (by linarith) (by linarith)
  unfold angleUnsignedNormal
  rw [hsub, h]
  simpa using hrep

/-! ## Evaluating the single-precision rounding -/

theorem roundSingle_eval (q : ℚ) (e n : ℤ) (he : -126 ≤ e) (h1 : (2 : ℚ) ^ e ≤ |q|)
    (h2 : |q| < (2 : ℚ) ^ (e + 1)) (hn : roundHalfEven (q / (2 : ℚ) ^ (e - 23)) = n) :
    roundSingle q = (n : ℚ) * (2 : ℚ) ^ (e - 23) := by
  have hpos : 0 < |q| := lt_of_lt_of_le (zpow_pos (by norm_num) e) h1
  have hq : q ≠ 0 := abs_pos.1 hpos
  have hlog : Int.log 2 |q| = e := by
    have ha : e ≤ Int.log 2 |q| :=
      (Int.zpow_le_iff_le_log (by norm_num) hpos).1 (by exact_mod_cast h1)
    have hb : Int.log 2 |q| < e + 1 :=
      (Int.lt_zpow_iff_log_lt (by norm_num) hpos).1 (by exact_mod_cast h2)
    omega
  unfold roundSingle
  rw [if_neg hq]
  simp only [hlog, max_eq_left he, hn]

theorem roundSingle_zero : roundSingle 0 = 0 := by
  simp [roundSingle]

/-- A value `n * 2^(e-23)` whose magnitude lies in the binade `[2^e, 2^(e+1))` is a
single-precision number: rounding returns it. -/
theorem roundSingle_of_representable (q : ℚ) (e n : ℤ) (he : -126 ≤ e)
    (h1 : (2 : ℚ) ^ e ≤ |q|) (h2 : |q| < (2 : ℚ) ^ (e + 1))
    (hq : q = (n : ℚ) * (2 : ℚ) ^ (e - 23)) : roundSingle q = q := by
  have hu : (2 : ℚ) ^ (e - 23) ≠ 0 := (zpow_pos (by norm_num) _).ne.symm
  have hn : roundHalfEven (q / (2 : ℚ) ^ (e - 23)) = n := by
    rw [hq, mul_div_assoc, div_self hu, mul_one]
    exact roundHalfEven_intCast n
  rw [roundSingle_eval q e n he h1 h2 hn, ← hq]

theorem roundSingle_neg180 : roundSingle (-180) = -180 :=
  roundSingle_of_representable (-180) 7 (-11796480) (by norm_num)
    (by norm_num [abs_of_neg]) (by norm_num [abs_of_neg]) (by norm_num)

theorem roundSingle_80 : roundSingle 80 = 80 :=
  roundSingle_of_representable 80 6 10485760 (by norm_num)
    (by norm_num [abs_of_pos]) (by norm_num [abs_of_pos]) (by norm_num)

theorem roundSingle_neg190 : roundSingle (-190) = -190 :=
  roundSingle_of_representable (-190) 7 (-12451840) (by norm_num)
    (by norm_num [abs_of_neg]) (by norm_num [abs_of_neg]) (by norm_num)

theorem roundSingle_350 : roundSingle 350 = 350 :=
  roundSingle_of_representable 350 8 11468800 (by norm_num)
    (by norm_num [abs_of_pos]) (by norm_num [abs_of_pos]) (by norm_num)

theorem roundSingle_270 : roundSingle 270 = 270 :=
  roundSingle_of_representable 270 8 8847360 (by norm_num)
    (by norm_num [abs_of_pos]) (by norm_num [abs_of_pos]) (by norm_num)

theorem roundSingle_90 : roundSingle 90 = 90 :=
  roundSingle_of_representable 90 6 11796480 (by norm_num)
    (by norm_num [abs_of_pos]) (by norm_num [abs_of_pos]) (by norm_num)

/-- The float `2^-30` is representable. -/
theorem roundSingle_tiny : roundSingle (1 / 2 ^ 30) = 1 / 2 ^ 30 :=
  roundSingle_of_representable (1 / 2 ^ 30) (-30) 8388608 (by norm_num)
    (by norm_num [abs_of_pos]) (by norm_num [abs_of_pos]) (by norm_num)

/-- In single precision `2^-30 - 180` rounds to `-180`: the spacing of the floats of
`[128, 256)` is `2^-16`. -/
theorem roundSingle_tiny_sub_180 : roundSingle (1 / 2 ^ 30 - 180) = -180 := by
  have hn : roundHalfEven ((1 / 2 ^ 30 - 180) / (2 : ℚ) ^ ((7 : ℤ) - 23)) = -11796480 :=
    roundHalfEven_eq_of_near _ _ (by norm_num) (by norm_num)
  rw [roundSingle_eval (1 / 2 ^ 30 - 180) 7 (-11796480) (by norm_num)
    (by norm_num [abs_of_neg]) (by norm_num [abs_of_neg]) hn]
  norm_num

/-! ## The radian constants are the rounded literals -/

/-- The literal `3.141592653589793f` denotes the float `13176795 / 2^22`. -/
theorem radians_pi_literal :
    roundSingle (3141592653589793 / 10 ^ 15) = AngleUnit.Radians.pi := by
  have hn : roundHalfEven ((3141592653589793 / 10 ^ 15) / (2 : ℚ) ^ ((1 : ℤ) - 23)) = 13176795 :=
    roundHalfEven_eq_of_near _ _ (by norm_num) (by norm_num)
  rw [roundSingle_eval _ 1 13176795 (by norm_num) (by norm_num [abs_of_pos])
    (by norm_num [abs_of_pos]) hn]
  norm_num [AngleUnit.pi]

/-- The literal `6.283185307179586f` denotes the float `13176795 / 2^21`. -/
theorem radians_twice_pi_literal :
    roundSingle (6283185307179586 / 10 ^ 15) = AngleUnit.Radians.twice_pi := by
  have hn : roundHalfEven ((6283185307179586 / 10 ^ 15) / (2 : ℚ) ^ ((2 : ℤ) - 23)) = 13176795 :=
    roundHalfEven_eq_of_near _ _ (by norm_num) (by norm_num)
  rw [roundSingle_eval _ 2 13176795 (by norm_num) (by norm_num [abs_of_pos])
    (by norm_num [abs_of_pos]) hn]
  norm_num [AngleUnit.twice_pi]

/-- The literal `1.5707963267948966`, narrowed to `float`, is `13176795 / 2^23` (the
intermediate double lies within `2^-53` of the literal, far from a rounding boundary). -/
theorem radians_half_pi_literal :
    roundSingle (15707963267948966 / 10 ^ 16) = AngleUnit.Radians.half_pi := by
  have hn : roundHalfEven ((15707963267948966 / 10 ^ 16) / (2 : ℚ) ^ ((0 : ℤ) - 23)) = 13176795 :=
    roundHalfEven_eq_of_near _ _ (by norm_num) (by norm_num)
  rw [roundSingle_eval _ 0 13176795 (by norm_num) (by norm_num [abs_of_pos])
    (by norm_num [abs_of_pos]) hn]
  norm_num [AngleUnit.half_pi]

/-! ## Evaluating the functions at concrete angles -/

theorem rnd_of_representable (m : Arith) (q : ℚ) (h : roundSingle q = q) : m.rnd q = q := by
  cases m
  · rfl
  · exact h

theorem angleSignedNormal_degrees_of_mem (x : ℚ) (hlo : -180 ≤ x) (hhi : x < 180) :
    angleSignedNormal AngleUnit.Degrees x = x :=
  angleSignedNormal_of_mem AngleUnit.Degrees x (by simpa [AngleUnit.pi] using hlo)
    (by simpa [AngleUnit.pi] using hhi)

theorem angleUnsignedNormal_degrees_zero (m : Arith) :
    angleUnsignedNormal m AngleUnit.Degrees 0 = 0 := by
  have h1 : m.rnd (-180) = -180 := rnd_of_representable m _ roundSingle_neg180
  have h2 : m.rnd 0 = 0 := rnd_of_representable m _ roundSingle_zero
  have h3 : angleSignedNormal AngleUnit.Degrees (-180) = -180 :=
    angleSignedNormal_degrees_of_mem _ (by norm_num) (by norm_num)
  simp only [angleUnsignedNormal, AngleUnit.pi, zero_sub, h1, h3]
  norm_num [h2]

theorem angleHorizontalPolar_degrees_0_100 (m : Arith) :
    angleHorizontalPolar m AngleUnit.Degrees 0 100 = (0, 80) := by
  have hs : angleSignedNormal AngleUnit.Degrees 100 = 100 :=
    angleSignedNormal_degrees_of_mem _ (by norm_num) (by norm_num)
  have h80 : m.rnd 80 = 80 := rnd_of_representable m _ roundSingle_80
  have hgt : (100 : ℚ) > AngleUnit.Degrees.half_pi := by norm_num [AngleUnit.half_pi]
  unfold angleHorizontalPolar
  simp only [hs, if_pos hgt, neg_zero, angleUnsignedNormal_degrees_zero, AngleUnit.pi]
  norm_num [h80]

theorem not_sameDirection_degrees_0_100 : ¬ SameDirection AngleUnit.Degrees 0 100 0 80 := by
  intro h
  have hx := h.1
  simp only [Rat.cast_zero, zero_mul, Real.cos_zero, mul_one] at hx
  have hneg : Real.cos (((100 : ℚ) : ℝ) * (Real.pi / 180)) < 0 := by
    apply Real.cos_neg_of_pi_div_two_lt_of_lt <;> push_cast <;> linarith [Real.pi_pos]
  have hpos : 0 < Real.cos (((80 : ℚ) : ℝ) * (Real.pi / 180)) := by
    apply Real.cos_pos_of_mem_Ioo
    constructor <;> push_cast <;> linarith [Real.pi_pos]
  linarith

/-- Shifting the azimuth by a half turn, instead of negating it, keeps the direction of
azimuth `0`, altitude `100` degrees. -/
theorem sameDirection_degrees_0_100_shifted : SameDirection AngleUnit.Degrees 0 100 180 80 := by
  have e100 : ((100 : ℚ) : ℝ) * (Real.pi / 180) = Real.pi - ((80 : ℚ) : ℝ) * (Real.pi / 180) := by
    push_cast; ring
  have e180 : ((180 : ℚ) : ℝ) * (Real.pi / 180) = Real.pi := by
    push_cast; ring
  simp only [SameDirection, e100, e180, Real.cos_pi_sub, Real.sin_pi_sub, Real.cos_pi,
    Real.sin_pi, Rat.cast_zero, zero_mul, Real.cos_zero, Real.sin_zero]
  refine ⟨by ring, by ring, trivial⟩

/-! ## The polar normalisation in exact arithmetic -/

theorem angleHorizontalPolar_exact_range (U : AngleUnit) (azimuth altitude : ℚ) :
    (-U.half_pi ≤ (angleHorizontalPolar Arith.exact U azimuth altitude).2 ∧
      (angleHorizontalPolar Arith.exact U azimuth altitude).2 ≤ U.half_pi) ∧
    (0 ≤ (angleHorizontalPolar Arith.exact U azimuth altitude).1 ∧
      (angleHorizontalPolar Arith.exact U azimuth altitude).1 < U.twice_pi) := by
  obtain ⟨h1, h2⟩ := angleSignedNormal_range U altitude
  have hq := U.half_pi_eq
  have hp := U.pi_pos
  unfold angleHorizontalPolar
  simp only
  split_ifs with ha hb
  · refine ⟨?_, angleUnsignedNormal_exact_range U _⟩
    simp only [Arith.rnd]
    constructor <;> linarith
  · refine ⟨?_, angleUnsignedNormal_exact_range U _⟩
    simp only [Arith.rnd]
    constructor <;> linarith
  · refine ⟨?_, angleUnsignedNormal_exact_range U _⟩
    constructor <;> linarith

theorem angleHorizontalPolar_altitude_of_canonical (m : Arith) (U : AngleUnit)
    (azimuth altitude : ℚ) (hlo : -U.half_pi < altitude) (hhi : altitude < U.half_pi) :
    angleHorizontalPolar m U azimuth altitude = (angleUnsignedNormal m U azimuth, altitude) := by
  have hq := U.half_pi_eq
  have hp := U.pi_pos
  have hs : angleSignedNormal U altitude = altitude :=
    angleSignedNormal_of_mem U altitude (by linarith) (by linarith)
  unfold angleHorizontalPolar
  simp only [hs]
  rw [if_neg (by linarith), if_neg (by linarith)]

/-! ## The claims -/

/-- C1: for every angle `a` and every unit, `angleSignedNormal` lies in the half-open
interval `[-pi(), pi())`: it is at least minus a half turn and strictly below a half turn. -/
theorem C1_angleSignedNormal_half_open (U : AngleUnit) (a : ℚ) :
    -U.pi ≤ angleSignedNormal U a ∧ angleSignedNormal U a < U.pi :=
  angleSignedNormal_range U a

/-- C2: in exact arithmetic, for every angle `a` and every unit, `angleUnsignedNormal` lies in
`[0, twice_pi())`. -/
theorem C2_angleUnsignedNormal_exact_range (U : AngleUnit) (a : ℚ) :
    0 ≤ angleUnsignedNormal Arith.exact U a ∧
      angleUnsignedNormal Arith.exact U a < U.twice_pi :=
  angleUnsignedNormal_exact_range U a

/-- C3: in exact arithmetic, for every input pair and every unit, the altitude left by
`angleHorizontalPolar` lies in `[-half_pi(), half_pi()]` and the azimuth in
`[0, twice_pi())`. -/
theorem C3_angleHorizontalPolar_exact_range (U : AngleUnit) (azimuth altitude : ℚ) :
    (-U.half_pi ≤ (angleHorizontalPolar Arith.exact U azimuth altitude).2 ∧
      (angleHorizontalPolar Arith.exact U azimuth altitude).2 ≤ U.half_pi) ∧
    (0 ≤ (angleHorizontalPolar Arith.exact U azimuth altitude).1 ∧
      (angleHorizontalPolar Arith.exact U azimuth altitude).1 < U.twice_pi) :=
  angleHorizontalPolar_exact_range U azimuth altitude

/-- C4: at azimuth `0`, altitude `100` degrees, in either arithmetic, `angleHorizontalPolar`
leaves azimuth `0` and altitude `80`, and that pair does not denote the direction of the
input: the first component of the unit vector is `cos 100° < 0` for the input and
`cos 80° > 0` for the output.  The pair with the azimuth shifted by a half turn, azimuth
`180`, altitude `80`, does denote it. -/
theorem C4_angleHorizontalPolar_changes_direction :
    (∀ m : Arith, angleHorizontalPolar m AngleUnit.Degrees 0 100 = (0, 80)) ∧
      ¬ SameDirection AngleUnit.Degrees 0 100 0 80 ∧
      SameDirection AngleUnit.Degrees 0 100 180 80 :=
  ⟨angleHorizontalPolar_degrees_0_100, not_sameDirection_degrees_0_100,
    sameDirection_degrees_0_100_shifted⟩

/-- C5: normalisation keeps the angle modulo a full turn.  Both `angleSignedNormal U a - a` and
(in exact arithmetic) `angleUnsignedNormal U a - a` are integer multiples of `twice_pi()`,
and each result is the only value of its target interval with that property. -/
theorem C5_normal_forms_congruent_and_unique (U : AngleUnit) (a : ℚ) :
    (∃ k : ℤ, angleSignedNormal U a - a = (k : ℚ) * U.twice_pi) ∧
    (∃ k : ℤ, angleUnsignedNormal Arith.exact U a - a = (k : ℚ) * U.twice_pi) ∧
    (∀ x : ℚ, -U.pi ≤ x → x < U.pi → (∃ k : ℤ, x - a = (k : ℚ) * U.twice_pi) →
      x = angleSignedNormal U a) ∧
    (∀ x : ℚ, 0 ≤ x → x < U.twice_pi → (∃ k : ℤ, x - a = (k : ℚ) * U.twice_pi) →
      x = angleUnsignedNormal Arith.exact U a) := by
  refine ⟨angleSignedNormal_congr U a, angleUnsignedNormal_exact_congr U a, ?_, ?_⟩
  · rintro x hlo hhi ⟨k, hk⟩
    obtain ⟨j, hj⟩ := angleSignedNormal_congr U a
    refine signed_representative_unique U _ _ (k - j) ⟨hlo, hhi⟩
      (angleSignedNormal_range U a) ?_
    push_cast
    linarith
  · rintro x hlo hhi ⟨k, hk⟩
    obtain ⟨j, hj⟩ := angleUnsignedNormal_exact_congr U a
    obtain ⟨h1, h2⟩ := angleUnsignedNormal_exact_range U a
    have ht := U.twice_pi_eq
    have h := signed_representative_unique U (x - U.pi)
      (angleUnsignedNormal Arith.exact U a - U.pi) (k - j)
      ⟨by linarith, by linarith⟩ ⟨by linarith, by linarith⟩
      (by push_cast; linarith)
    linarith

/-- C6: `angleSignedNormal` is idempotent, for every angle and unit, also when the first
result is exactly `-pi()`. -/
theorem C6_angleSignedNormal_idempotent (U : AngleUnit) (a : ℚ) :
    angleSignedNormal U (angleSignedNormal U a) = angleSignedNormal U a :=
  angleSignedNormal_of_mem U _ (angleSignedNormal_range U a).1 (angleSignedNormal_range U a).2

/-- C7: in exact arithmetic `angleUnsignedNormal` is idempotent, for every angle and unit. -/
theorem C7_angleUnsignedNormal_exact_idempotent (U : AngleUnit) (a : ℚ) :
    angleUnsignedNormal Arith.exact U (angleUnsignedNormal Arith.exact U a) =
      angleUnsignedNormal Arith.exact U a :=
  angleUnsignedNormal_of_mem Arith.exact U _ (angleUnsignedNormal_exact_range U a).1
    (angleUnsignedNormal_exact_range U a).2 rfl rfl

/-- C8: `angleSignedNormal` has period one full turn: for every angle `a`, integer `k` and
unit, the exact sum `a + k * twice_pi()` is normalised to the same value as `a`. -/
theorem C8_angleSignedNormal_periodic (U : AngleUnit) (a : ℚ) (k : ℤ) :
    angleSignedNormal U (a + (k : ℚ) * U.twice_pi) = angleSignedNormal U a :=
  angleSignedNormal_period U a k

/-- C9, as stated, fails in single precision: azimuth `2^-30`, altitude `0` degrees is a
canonical direction away from the poles, both values are floats, and `angleHorizontalPolar`
returns azimuth `0`, because `2^-30 - 180` rounds to `-180`. -/
theorem C9_polar_fixed_point_counterexample :
    (-AngleUnit.Degrees.half_pi < 0 ∧ (0 : ℚ) < AngleUnit.Degrees.half_pi) ∧
    ((0 : ℚ) ≤ 1 / 2 ^ 30 ∧ (1 / 2 ^ 30 : ℚ) < AngleUnit.Degrees.twice_pi) ∧
    roundSingle (1 / 2 ^ 30) = 1 / 2 ^ 30 ∧
    angleHorizontalPolar Arith.binary32 AngleUnit.Degrees (1 / 2 ^ 30) 0 = (0, 0) ∧
    angleHorizontalPolar Arith.binary32 AngleUnit.Degrees (1 / 2 ^ 30) 0 ≠ (1 / 2 ^ 30, 0) := by
  have hp : angleHorizontalPolar Arith.binary32 AngleUnit.Degrees (1 / 2 ^ 30) 0 = (0, 0) := by
    rw [angleHorizontalPolar_altitude_of_canonical _ _ _ _ (by norm_num [AngleUnit.half_pi])
      (by norm_num [AngleUnit.half_pi])]
    have h3 : angleSignedNormal AngleUnit.Degrees (-180) = -180 :=
      angleSignedNormal_degrees_of_mem _ (by norm_num) (by norm_num)
    simp only [angleUnsignedNormal, Arith.rnd, AngleUnit.pi, roundSingle_tiny_sub_180, h3]
    norm_num [roundSingle_zero]
  refine ⟨by norm_num [AngleUnit.half_pi], by norm_num [AngleUnit.twice_pi],
    roundSingle_tiny, hp, ?_⟩
  rw [hp]
  intro h
  have h1 := congrArg Prod.fst h
  norm_num at h1

/-- C9, amended: for a canonical polar direction that is not at a pole,
`angleHorizontalPolar` leaves the altitude unchanged, and leaves the azimuth unchanged
whenever the subtraction `azimuth - pi()` is computed without rounding and the azimuth is a
representable value (both always so in exact arithmetic). -/
theorem C9_polar_fixed_point_when_exact (m : Arith) (U : AngleUnit) (azimuth altitude : ℚ)
    (hlo : -U.half_pi < altitude) (hhi : altitude < U.half_pi)
    (haz : 0 ≤ azimuth ∧ azimuth < U.twice_pi) :
    (angleHorizontalPolar m U azimuth altitude).2 = altitude ∧
    (m.rnd (azimuth - U.pi) = azimuth - U.pi → m.rnd azimuth = azimuth →
      angleHorizontalPolar m U azimuth altitude = (azimuth, altitude)) := by
  rw [angleHorizontalPolar_altitude_of_canonical m U azimuth altitude hlo hhi]
  refine ⟨rfl, fun hsub hrep => ?_⟩
  rw [angleUnsignedNormal_of_mem m U azimuth haz.1 haz.2 hsub hrep]

/-- C9, amended, at a concrete single-precision input: azimuth `270`, altitude `0` degrees is
returned unchanged. -/
theorem C9_polar_fixed_point_when_exact_witness :
    angleHorizontalPolar Arith.binary32 AngleUnit.Degrees 270 0 = (270, 0) :=
  (C9_polar_fixed_point_when_exact Arith.binary32 AngleUnit.Degrees 270 0
    (by norm_num [AngleUnit.half_pi]) (by norm_num [AngleUnit.half_pi])
    ⟨by norm_num, by norm_num [AngleUnit.twice_pi]⟩).2
    (by simp only [Arith.rnd, AngleUnit.pi]; norm_num [roundSingle_90])
    (by simp only [Arith.rnd]; exact roundSingle_270)

/-- C10: in degrees, in either arithmetic, `angleSignedNormal(190) == -170`,
`angleSignedNormal(180) == -180` and `angleUnsignedNormal(-10) == 350`. -/
theorem C10_degrees_examples (m : Arith) :
    angleSignedNormal AngleUnit.Degrees 190 = -170 ∧
    angleSignedNormal AngleUnit.Degrees 180 = -180 ∧
    angleUnsignedNormal m AngleUnit.Degrees (-10) = 350 := by
  have h190 : roundHalfEven ((190 : ℚ) / 360) = 1 :=
    roundHalfEven_eq_of_near _ 1 (by norm_num) (by norm_num)
  have h180 : roundHalfEven ((180 : ℚ) / 360) = 0 := by
    have h := roundHalfEven_tie 0
    norm_num at h
    have e : (180 : ℚ) / 360 = 1 / 2 := by norm_num
    rw [e]; exact h
  have hm190 : roundHalfEven ((-190 : ℚ) / 360) = -1 :=
    roundHalfEven_eq_of_near _ (-1) (by norm_num) (by norm_num)
  have r1 : m.rnd (-190) = -190 := rnd_of_representable m _ roundSingle_neg190
  have r2 : m.rnd 350 = 350 := rnd_of_representable m _ roundSingle_350
  refine ⟨?_, ?_, ?_⟩
  · simp only [angleSignedNormal, remainder, AngleUnit.twice_pi, AngleUnit.pi, h190]
    norm_num
  · simp only [angleSignedNormal, remainder, AngleUnit.twice_pi, AngleUnit.pi, h180]
    norm_num
  · have e : (-10 : ℚ) - 180 = -190 := by norm_num
    simp only [angleUnsignedNormal, AngleUnit.pi, e, r1]
    simp only [angleSignedNormal, remainder, AngleUnit.twice_pi, AngleUnit.pi, hm190]
    norm_num [r2]

/-! ## Further evaluations for the degree examples -/

theorem roundSingle_neg210 : roundSingle (-210) = -210 :=
  roundSingle_of_representable (-210) 7 (-13762560) (by norm_num)
    (by norm_num [abs_of_neg]) (by norm_num [abs_of_neg]) (by norm_num)

theorem roundSingle_330 : roundSingle 330 = 330 :=
  roundSingle_of_representable 330 8 10813440 (by norm_num)
    (by norm_num [abs_of_pos]) (by norm_num [abs_of_pos]) (by norm_num)

theorem angleUnsignedNormal_degrees_neg30 (m : Arith) :
    angleUnsignedNormal m AngleUnit.Degrees (-30) = 330 := by
  have hn : roundHalfEven ((-210 : ℚ) / 360) = -1 :=
    roundHalfEven_eq_of_near _ (-1) (by norm_num) (by norm_num)
  have r1 : m.rnd (-210) = -210 := rnd_of_representable m _ roundSingle_neg210
  have r2 : m.rnd 330 = 330 := rnd_of_representable m _ roundSingle_330
  have e : (-30 : ℚ) - 180 = -210 := by norm_num
  simp only [angleUnsignedNormal, AngleUnit.pi, e, r1]
  simp only [angleSignedNormal, remainder, AngleUnit.twice_pi, AngleUnit.pi, hn]
  norm_num [r2]

/-! ## The double-precision literal of `Radians::half_pi()` -/

theorem roundDouble_eval (q : ℚ) (e n : ℤ) (he : -1022 ≤ e) (h1 : (2 : ℚ) ^ e ≤ |q|)
    (h2 : |q| < (2 : ℚ) ^ (e + 1)) (hn : roundHalfEven (q / (2 : ℚ) ^ (e - 52)) = n) :
    roundDouble q = (n : ℚ) * (2 : ℚ) ^ (e - 52) := by
  have hpos : 0 < |q| := lt_of_lt_of_le (zpow_pos (by norm_num) e) h1
  have hq : q ≠ 0 := abs_pos.1 hpos
  have hlog : Int.log 2 |q| = e := by
    have ha : e ≤ Int.log 2 |q| :=
      (Int.zpow_le_iff_le_log (by norm_num) hpos).1 (by exact_mod_cast h1)
    have hb : Int.log 2 |q| < e + 1 :=
      (Int.lt_zpow_iff_log_lt (by norm_num) hpos).1 (by exact_mod_cast h2)
    omega
  unfold roundDouble
  rw [if_neg hq]
  simp only [hlog, max_eq_left he, hn]

/-- The literal `1.5707963267948966` denotes the double `7074237752028440 / 2^52`. -/
theorem radians_half_pi_double :
    roundDouble (15707963267948966 / 10 ^ 16) = 884279719003555 / 562949953421312 := by
  have hn : roundHalfEven ((15707963267948966 / 10 ^ 16) / (2 : ℚ) ^ ((0 : ℤ) - 52))
      = 7074237752028440 :=
    roundHalfEven_eq_of_near _ _ (by norm_num) (by norm_num)
  rw [roundDouble_eval _ 0 7074237752028440 (by norm_num) (by norm_num [abs_of_pos])
    (by norm_num [abs_of_pos]) hn]
  norm_num

/-- Narrowing that double to `float` gives `13176795 / 2^23`, the value used for
`Radians::half_pi()`. -/
theorem radians_half_pi_narrowed :
    roundSingle (roundDouble (15707963267948966 / 10 ^ 16)) = AngleUnit.Radians.half_pi := by
  rw [radians_half_pi_double]
  have hn : roundHalfEven ((884279719003555 / 562949953421312) / (2 : ℚ) ^ ((0 : ℤ) - 23))
      = 13176795 :=
    roundHalfEven_eq_of_near _ _ (by norm_num) (by norm_num)
  rw [roundSingle_eval _ 0 13176795 (by norm_num) (by norm_num [abs_of_pos])
    (by norm_num [abs_of_pos]) hn]
  norm_num [AngleUnit.half_pi]

/-! ## The remainder at its lower end -/

theorem roundHalfEven_even_of_lower_tie (q : ℚ) (h : q = (roundHalfEven q : ℚ) - 1 / 2) :
    roundHalfEven q % 2 = 0 := by
  have ht := roundHalfEven_tie (roundHalfEven q - 1)
  have e : ((roundHalfEven q - 1 : ℤ) : ℚ) + 1 / 2 = q := by
    push_cast; linarith
  rw [e] at ht
  by_cases hp : (roundHalfEven q - 1) % 2 = 0
  · rw [if_pos hp] at ht
    omega
  · omega

theorem remainder_eq_neg_half_iff (U : AngleUnit) (a : ℚ) :
    remainder a U.twice_pi = -U.pi ↔ ∃ k : ℤ, a = (4 * (k : ℚ) - 1) * U.pi := by
  have hp := U.pi_pos
  have hF := U.twice_pi_eq
  have hFpos := U.twice_pi_pos
  constructor
  · intro h
    unfold remainder at h
    have hq : a / U.twice_pi = (roundHalfEven (a / U.twice_pi) : ℚ) - 1 / 2 := by
      rw [div_eq_iff hFpos.ne.symm, hF]
      rw [hF] at h
      linarith
    have hev := roundHalfEven_even_of_lower_tie _ hq
    obtain ⟨k, hk⟩ : ∃ k : ℤ, roundHalfEven (a / U.twice_pi) = 2 * k :=
      ⟨roundHalfEven (a / U.twice_pi) / 2, by omega⟩
    refine ⟨k, ?_⟩
    rw [hk, hF] at h
    push_cast at h
    linarith
  · rintro ⟨k, hk⟩
    have hq : a / U.twice_pi = ((2 * k - 1 : ℤ) : ℚ) + 1 / 2 := by
      rw [div_eq_iff hFpos.ne.symm, hF, hk]
      push_cast
      ring
    have hn : roundHalfEven (a / U.twice_pi) = 2 * k := by
      rw [hq, roundHalfEven_tie]
      have hodd : ¬ ((2 * k - 1) % 2 = 0) := by omega
      rw [if_neg hodd]
      ring
    unfold remainder
    rw [hn, hF, hk]
    push_cast
    ring

/-! ## The capture flags -/

theorem ScriptingInterface.captured_call (s : ScriptingInterface) (c : CaptureCall)
    (f : CaptureFlag) :
    (s.call c).captured f = if c.flag = f then c.isCapture else s.captured f := by
  cases c <;> cases f <;> rfl

theorem ScriptingInterface.run_concat (s : ScriptingInterface) (calls : List CaptureCall)
    (c : CaptureCall) : s.run (calls ++ [c]) = (s.run calls).call c := by
  simp [ScriptingInterface.run, List.foldl_append]

theorem lastCallFor_concat (f : CaptureFlag) (calls : List CaptureCall) (c : CaptureCall) :
    lastCallFor f (calls ++ [c]) = if c.flag = f then some c else lastCallFor f calls := by
  unfold lastCallFor
  by_cases h : c.flag = f
  · simp [List.filter_append, h]
  · simp [List.filter_append, h]

theorem ScriptingInterface.captured_run (s : ScriptingInterface) (calls : List CaptureCall)
    (f : CaptureFlag) :
    (s.run calls).captured f =
      match lastCallFor f calls with
      | none => s.captured f
      | some c => c.isCapture := by
  induction calls using List.reverseRecOn with
  | nil => rfl
  | append_singleton calls c ih =>
    rw [ScriptingInterface.run_concat, ScriptingInterface.captured_call, lastCallFor_concat]
    by_cases h : c.flag = f
    · simp [h]
    · simp only [if_neg h]
      exact ih

/-! ## Single precision just below zero degrees -/

/-- The float `-2^-16` is representable. -/
theorem roundSingle_neg_small : roundSingle (-1 / 2 ^ 16) = -1 / 2 ^ 16 :=
  roundSingle_of_representable (-1 / 2 ^ 16) (-16) (-8388608) (by norm_num)
    (by norm_num [abs_of_neg]) (by norm_num [abs_of_neg]) (by norm_num)

/-- The subtraction `-2^-16 - 180` is exact in single precision: the floats of `[128, 256)`
are the multiples of `2^-16`. -/
theorem roundSingle_neg_small_sub_180 :
    roundSingle (-1 / 2 ^ 16 - 180) = -11796481 / 65536 := by
  have h := roundSingle_of_representable (-1 / 2 ^ 16 - 180) 7 (-11796481) (by norm_num)
    (by norm_num [abs_of_neg]) (by norm_num [abs_of_neg]) (by norm_num)
  rw [h]; norm_num

/-- The signed normal form of `-180 - 2^-16` degrees is `180 - 2^-16`. -/
theorem angleSignedNormal_degrees_below_neg180 :
    angleSignedNormal AngleUnit.Degrees (-11796481 / 65536) = 11796479 / 65536 := by
  have hn : roundHalfEven ((-11796481 / 65536 : ℚ) / 360) = -1 :=
    roundHalfEven_eq_of_near _ (-1) (by norm_num) (by norm_num)
  simp only [angleSignedNormal, remainder, AngleUnit.twice_pi, AngleUnit.pi, hn]
  norm_num

/-- The sum `(180 - 2^-16) + 180` lies halfway between the floats `360 - 2^-15` and `360`
and rounds to the one with the even significand, `360`. -/
theorem roundSingle_below_360 : roundSingle (11796479 / 65536 + 180) = 360 := by
  have hq : (11796479 / 65536 + 180 : ℚ) / (2 : ℚ) ^ ((8 : ℤ) - 23)
      = ((11796479 : ℤ) : ℚ) + 1 / 2 := by norm_num
  have hn : roundHalfEven ((11796479 / 65536 + 180 : ℚ) / (2 : ℚ) ^ ((8 : ℤ) - 23))
      = 11796480 := by
    rw [hq, roundHalfEven_tie]
    decide
  rw [roundSingle_eval _ 8 11796480 (by norm_num) (by norm_num [abs_of_pos])
    (by norm_num [abs_of_pos]) hn]
  norm_num

theorem angleUnsignedNormal_binary32_neg_small :
    angleUnsignedNormal Arith.binary32 AngleUnit.Degrees (-1 / 2 ^ 16) = 360 := by
  simp only [angleUnsignedNormal, Arith.rnd, AngleUnit.pi, roundSingle_neg_small_sub_180,
    angleSignedNormal_degrees_below_neg180, roundSingle_below_360]

theorem roundSingle_180 : roundSingle 180 = 180 :=
  roundSingle_of_representable 180 7 11796480 (by norm_num)
    (by norm_num [abs_of_pos]) (by norm_num [abs_of_pos]) (by norm_num)

theorem roundSingle_360 : roundSingle 360 = 360 :=
  roundSingle_of_representable 360 8 11796480 (by norm_num)
    (by norm_num [abs_of_pos]) (by norm_num [abs_of_pos]) (by norm_num)

theorem angleSignedNormal_degrees_180 : angleSignedNormal AngleUnit.Degrees 180 = -180 := by
  have hn : roundHalfEven ((180 : ℚ) / 360) = 0 := by
    have h := roundHalfEven_tie 0
    norm_num at h
    have e : (180 : ℚ) / 360 = 1 / 2 := by norm_num
    rw [e]; exact h
  simp only [angleSignedNormal, remainder, AngleUnit.twice_pi, AngleUnit.pi, hn]
  norm_num

theorem angleUnsignedNormal_binary32_360 :
    angleUnsignedNormal Arith.binary32 AngleUnit.Degrees 360 = 0 := by
  have e : (360 : ℚ) - 180 = 180 := by norm_num
  have e2 : (-180 : ℚ) + 180 = 0 := by norm_num
  simp only [angleUnsignedNormal, Arith.rnd, AngleUnit.pi, e, roundSingle_180,
    angleSignedNormal_degrees_180, e2, roundSingle_zero]

/-! ## The polar normalisation on an altitude already in range -/

theorem angleHorizontalPolar_of_altitude_mem (m : Arith) (U : AngleUnit)
    (azimuth altitude : ℚ) (hlo : -U.half_pi ≤ altitude) (hhi : altitude ≤ U.half_pi) :
    angleHorizontalPolar m U azimuth altitude = (angleUnsignedNormal m U azimuth, altitude) := by
  have hq := U.half_pi_eq
  have hp := U.pi_pos
  have hs : angleSignedNormal U altitude = altitude :=
    angleSignedNormal_of_mem U altitude (by linarith) (by linarith)
  unfold angleHorizontalPolar
  simp only [hs]
  rw [if_neg (by linarith), if_neg (by linarith)]

theorem angleHorizontalPolar_exact_idempotent (U : AngleUnit) (azimuth altitude : ℚ) :
    angleHorizontalPolar Arith.exact U
        (angleHorizontalPolar Arith.exact U azimuth altitude).1
        (angleHorizontalPolar Arith.exact U azimuth altitude).2
      = angleHorizontalPolar Arith.exact U azimuth altitude := by
  obtain ⟨⟨h1, h2⟩, h3, h4⟩ := angleHorizontalPolar_exact_range U azimuth altitude
  rw [angleHorizontalPolar_of_altitude_mem Arith.exact U _ _ h1 h2,
    angleUnsignedNormal_of_mem Arith.exact U _ h3 h4 rfl rfl]

theorem angleHorizontalPolar_binary32_neg_small :
    angleHorizontalPolar Arith.binary32 AngleUnit.Degrees (-1 / 2 ^ 16) 0 = (360, 0) := by
  rw [angleHorizontalPolar_of_altitude_mem _ _ _ _ (by norm_num [AngleUnit.half_pi])
    (by norm_num [AngleUnit.half_pi]), angleUnsignedNormal_binary32_neg_small]

theorem angleHorizontalPolar_binary32_360 :
    angleHorizontalPolar Arith.binary32 AngleUnit.Degrees 360 0 = (0, 0) := by
  rw [angleHorizontalPolar_of_altitude_mem _ _ _ _ (by norm_num [AngleUnit.half_pi])
    (by norm_num [AngleUnit.half_pi]), angleUnsignedNormal_binary32_360]

/-! ## Representable values and exact subtractions -/

/-- An integer multiple of `2^j`, with `j` at least the smallest float exponent, that is
smaller in magnitude than `2^(j+24)` is a single-precision number. -/
theorem roundSingle_of_multiple (d : ℚ) (k j : ℤ) (hd : d = (k : ℚ) * (2 : ℚ) ^ j)
    (hj : -149 ≤ j) (hlt : |d| < (2 : ℚ) ^ (j + 24)) : roundSingle d = d := by
  by_cases h0 : d = 0
  · rw [h0, roundSingle_zero]
  have hpos : 0 < |d| := abs_pos.2 h0
  have hle : ((2 : ℕ) : ℚ) ^ Int.log 2 |d| ≤ |d| := Int.zpow_log_le_self (by norm_num) hpos
  have he : Int.log 2 |d| < j + 24 :=
    (Int.lt_zpow_iff_log_lt (by norm_num) hpos).1 (by exact_mod_cast hlt)
  have hm : max (Int.log 2 |d|) (-126) - 23 ≤ j := by
    rcases max_cases (Int.log 2 |d|) (-126) with ⟨h, _⟩ | ⟨h, _⟩ <;> rw [h] <;> omega
  obtain ⟨M, hM⟩ : ∃ M : ℤ, max (Int.log 2 |d|) (-126) - 23 = M := ⟨_, rfl⟩
  rw [hM] at hm
  obtain ⟨t, ht⟩ : ∃ t : ℕ, j = M + (t : ℤ) := ⟨(j - M).toNat, by omega⟩
  have h2 : (2 : ℚ) ≠ 0 := by norm_num
  have hu : (2 : ℚ) ^ M ≠ 0 := zpow_ne_zero _ h2
  have hd2 : d = ((k * 2 ^ t : ℤ) : ℚ) * (2 : ℚ) ^ M := by
    rw [hd, ht, zpow_add₀ h2, zpow_natCast]
    push_cast
    ring
  have hq : d / (2 : ℚ) ^ M = ((k * 2 ^ t : ℤ) : ℚ) := by
    rw [div_eq_iff hu]
    exact hd2
  unfold roundSingle
  rw [if_neg h0]
  simp only [hM]
  rw [hq, roundHalfEven_intCast, ← hd2]

/-- A non-zero single-precision number of magnitude at least `2^a` is an integer multiple
of `2^(a-23)`. -/
theorem multiple_of_roundSingle_fixed (s : ℚ) (a : ℤ) (hrep : roundSingle s = s)
    (ha : -126 ≤ a) (hlo : (2 : ℚ) ^ a ≤ |s|) : ∃ k : ℤ, s = (k : ℚ) * (2 : ℚ) ^ (a - 23) := by
  have hpos : 0 < |s| := lt_of_lt_of_le (zpow_pos (by norm_num) a) hlo
  have h0 : s ≠ 0 := abs_pos.1 hpos
  have he : a ≤ Int.log 2 |s| :=
    (Int.zpow_le_iff_le_log (by norm_num) hpos).1 (by exact_mod_cast hlo)
  have hm : max (Int.log 2 |s|) (-126) = Int.log 2 |s| := max_eq_left (by omega)
  obtain ⟨t, ht⟩ : ∃ t : ℕ, Int.log 2 |s| - 23 = (a - 23) + (t : ℤ) :=
    ⟨(Int.log 2 |s| - a).toNat, by omega⟩
  have h2 : (2 : ℚ) ≠ 0 := by norm_num
  unfold roundSingle at hrep
  rw [if_neg h0] at hrep
  simp only [hm] at hrep
  refine ⟨roundHalfEven (s / (2 : ℚ) ^ (Int.log 2 |s| - 23)) * 2 ^ t, ?_⟩
  nth_rewrite 1 [← hrep]
  rw [ht, zpow_add₀ h2, zpow_natCast]
  push_cast
  ring

/-- Two single-precision numbers of magnitude at least `2^a` whose difference is below
`2^(a+1)` in magnitude are subtracted without rounding. -/
theorem roundSingle_sub_exact (x y : ℚ) (a : ℤ) (ha : -126 ≤ a) (hx : roundSingle x = x)
    (hy : roundSingle y = y) (hxa : (2 : ℚ) ^ a ≤ |x|) (hya : (2 : ℚ) ^ a ≤ |y|)
    (hd : |x - y| < (2 : ℚ) ^ (a + 1)) : roundSingle (x - y) = x - y := by
  obtain ⟨kx, hkx⟩ := multiple_of_roundSingle_fixed x a hx ha hxa
  obtain ⟨ky, hky⟩ := multiple_of_roundSingle_fixed y a hy ha hya
  refine roundSingle_of_multiple (x - y) (kx - ky) (a - 23) ?_ (by omega) ?_
  · push_cast
    rw [sub_mul, ← hkx, ← hky]
  · have e : a - 23 + 24 = a + 1 := by ring
    rw [e]; exact hd

/-- For each unit, `half_pi()` lies in a binade `[2^a, 2^(a+1)]` and plus and minus `pi()`
are single-precision numbers. -/
theorem AngleUnit.binade (U : AngleUnit) :
    ∃ a : ℤ, -126 ≤ a ∧ (2 : ℚ) ^ a ≤ U.half_pi ∧ U.half_pi ≤ (2 : ℚ) ^ (a + 1) ∧
      roundSingle U.pi = U.pi ∧ roundSingle (-U.pi) = -U.pi := by
  cases U
  · refine ⟨6, by norm_num, by norm_num [AngleUnit.half_pi], by norm_num [AngleUnit.half_pi],
      roundSingle_of_multiple _ 180 0 (by norm_num [AngleUnit.pi]) (by norm_num)
        (by norm_num [AngleUnit.pi, abs_of_pos]),
      roundSingle_of_multiple _ (-180) 0 (by norm_num [AngleUnit.pi]) (by norm_num)
        (by norm_num [AngleUnit.pi, abs_of_pos])⟩
  · refine ⟨0, by norm_num, by norm_num [AngleUnit.half_pi], by norm_num [AngleUnit.half_pi],
      roundSingle_of_multiple _ 13176795 (-22) (by norm_num [AngleUnit.pi]) (by norm_num)
        (by norm_num [AngleUnit.pi, abs_of_pos]),
      roundSingle_of_multiple _ (-13176795) (-22) (by norm_num [AngleUnit.pi]) (by norm_num)
        (by norm_num [AngleUnit.pi, abs_of_pos])⟩
  · refine ⟨-2, by norm_num, by norm_num [AngleUnit.half_pi], by norm_num [AngleUnit.half_pi],
      roundSingle_of_multiple _ 1 (-1) (by norm_num [AngleUnit.pi]) (by norm_num)
        (by norm_num [AngleUnit.pi, abs_of_pos]),
      roundSingle_of_multiple _ (-1) (-1) (by norm_num [AngleUnit.pi]) (by norm_num)
        (by norm_num [AngleUnit.pi, abs_of_pos])⟩

/-- Past the north pole the reflection `pi() - altitude` is computed without rounding. -/
theorem reflect_north_exact (m : Arith) (U : AngleUnit) (s : ℚ) (hrep : m.rnd s = s)
    (h1 : U.half_pi < s) (h2 : s < U.pi) : m.rnd (U.pi - s) = U.pi - s := by
  cases m
  · rfl
  · obtain ⟨a, ha, hlo, hhi, hp, _⟩ := U.binade
    have hq := U.half_pi_eq
    have hpos : 0 < U.half_pi := lt_of_lt_of_le (zpow_pos (by norm_num) a) hlo
    refine roundSingle_sub_exact U.pi s a ha hp hrep ?_ ?_ ?_
    · rw [abs_of_pos U.pi_pos]; linarith
    · rw [abs_of_pos (by linarith)]; linarith
    · rw [abs_of_pos (by linarith)]; linarith

/-- Past the south pole the reflection `-pi() - altitude` is computed without rounding. -/
theorem reflect_south_exact (m : Arith) (U : AngleUnit) (s : ℚ) (hrep : m.rnd s = s)
    (h1 : -U.pi ≤ s) (h2 : s < -U.half_pi) : m.rnd (-U.pi - s) = -U.pi - s := by
  cases m
  · rfl
  · obtain ⟨a, ha, hlo, hhi, _, hn⟩ := U.binade
    have hq := U.half_pi_eq
    have hpos : 0 < U.half_pi := lt_of_lt_of_le (zpow_pos (by norm_num) a) hlo
    refine roundSingle_sub_exact (-U.pi) s a ha hn hrep ?_ ?_ ?_
    · rw [abs_of_neg (by linarith [U.pi_pos])]; linarith
    · rw [abs_of_neg (by linarith)]; linarith
    · rw [abs_of_nonpos (by linarith)]; linarith

/-! ## The claims, continued -/

/-- C11: in degrees, in either arithmetic, `angleHorizontalPolar` applied to azimuth `30`,
altitude `100` leaves altitude `80` and azimuth `330`. -/
theorem C11_polar_degrees_example (m : Arith) :
    angleHorizontalPolar m AngleUnit.Degrees 30 100 = (330, 80) := by
  have hs : angleSignedNormal AngleUnit.Degrees 100 = 100 :=
    angleSignedNormal_degrees_of_mem _ (by norm_num) (by norm_num)
  have h80 : m.rnd 80 = 80 := rnd_of_representable m _ roundSingle_80
  have hgt : (100 : ℚ) > AngleUnit.Degrees.half_pi := by norm_num [AngleUnit.half_pi]
  unfold angleHorizontalPolar
  simp only [hs, if_pos hgt, angleUnsignedNormal_degrees_neg30, AngleUnit.pi]
  norm_num [h80]

/-- C12: each unit system is consistently scaled: `twice_pi() == 2 * pi()` and
`half_pi() == pi() / 2` exactly, for degrees, radians and rotations; the radian values are
the single-precision values of the three literals, `half_pi()` being a double literal
narrowed to `float`. -/
theorem C12_units_consistently_scaled :
    (∀ U : AngleUnit, U.twice_pi = 2 * U.pi ∧ U.half_pi = U.pi / 2) ∧
    roundSingle (3141592653589793 / 10 ^ 15) = AngleUnit.Radians.pi ∧
    roundSingle (6283185307179586 / 10 ^ 15) = AngleUnit.Radians.twice_pi ∧
    roundSingle (roundDouble (15707963267948966 / 10 ^ 16)) = AngleUnit.Radians.half_pi :=
  ⟨fun U => ⟨U.twice_pi_eq, U.half_pi_eq⟩, radians_pi_literal, radians_twice_pi_literal,
    radians_half_pi_narrowed⟩

/-- C13: in single precision the float `-2^-16` degrees is normalised by
`angleUnsignedNormal` to exactly `360`, the full turn: the result is not strictly below
`twice_pi()`. -/
theorem C13_angleUnsignedNormal_binary32_reaches_full_turn :
    roundSingle (-1 / 2 ^ 16) = -1 / 2 ^ 16 ∧
    angleUnsignedNormal Arith.binary32 AngleUnit.Degrees (-1 / 2 ^ 16) = 360 ∧
    ¬ (angleUnsignedNormal Arith.binary32 AngleUnit.Degrees (-1 / 2 ^ 16)
        < AngleUnit.Degrees.twice_pi) := by
  refine ⟨roundSingle_neg_small, angleUnsignedNormal_binary32_neg_small, ?_⟩
  rw [angleUnsignedNormal_binary32_neg_small]
  norm_num [AngleUnit.twice_pi]

/-- C14: the four capture flags form an independent state.  All four start false; a call
sets the flag it addresses to true when it is a capture and to false when it is a release,
and leaves the other three as they were; the four query methods return the flags; so after
any sequence of calls on a fresh object a flag is true exactly when the last call that
addressed it was a capture. -/
theorem C14_capture_flags_independent :
    (∀ f : CaptureFlag, ScriptingInterface.init.captured f = false) ∧
    (∀ (s : ScriptingInterface) (c : CaptureCall) (f : CaptureFlag),
      (s.call c).captured f = if c.flag = f then c.isCapture else s.captured f) ∧
    (∀ s : ScriptingInterface,
      s.isMouseCaptured = s._mouseCaptured ∧ s.isTouchCaptured = s._touchCaptured ∧
      s.isWheelCaptured = s._wheelCaptured ∧ s.areActionsCaptured = s._actionsCaptured) ∧
    (∀ (calls : List CaptureCall) (f : CaptureFlag),
      (ScriptingInterface.init.run calls).captured f = true ↔
        ∃ c : CaptureCall, lastCallFor f calls = some c ∧ c.isCapture = true) := by
  refine ⟨fun f => by cases f <;> rfl, ScriptingInterface.captured_call,
    fun s => ⟨rfl, rfl, rfl, rfl⟩, fun calls f => ?_⟩
  rw [ScriptingInterface.captured_run]
  have hinit : ScriptingInterface.init.captured f = false := by cases f <;> rfl
  cases h : lastCallFor f calls with
  | none => simp [hinit]
  | some c => simp

/-- C15: `angleHorizontalPolar` equals the piecewise reference.  With `s` the signed normal
form of the altitude: past the north pole (`s > half_pi()`) the outputs are the unsigned
normal form of the negated azimuth and `pi() - s`; past the south pole (`s < -half_pi()`)
they are the unsigned normal form of the negated azimuth and `-pi() - s`; otherwise, also
at `s` equal to plus or minus `half_pi()`, they are the unsigned normal form of the azimuth,
not negated, and `s`.  The two reflections are float subtractions, and they are exact
whenever `s` is a value of the arithmetic, as the result of `remainder` is. -/
theorem C15_angleHorizontalPolar_piecewise (m : Arith) (U : AngleUnit) (azimuth altitude : ℚ) :
    angleHorizontalPolar m U azimuth altitude = normalizePolar m U azimuth altitude ∧
    (U.half_pi < angleSignedNormal U altitude →
      angleHorizontalPolar m U azimuth altitude =
        (angleUnsignedNormal m U (-azimuth), m.rnd (U.pi - angleSignedNormal U altitude))) ∧
    (angleSignedNormal U altitude < -U.half_pi →
      angleHorizontalPolar m U azimuth altitude =
        (angleUnsignedNormal m U (-azimuth), m.rnd (-U.pi - angleSignedNormal U altitude))) ∧
    (-U.half_pi ≤ angleSignedNormal U altitude → angleSignedNormal U altitude ≤ U.half_pi →
      angleHorizontalPolar m U azimuth altitude =
        (angleUnsignedNormal m U azimuth, angleSignedNormal U altitude)) ∧
    (m.rnd (angleSignedNormal U altitude) = angleSignedNormal U altitude →
      (U.half_pi < angleSignedNormal U altitude →
        m.rnd (U.pi - angleSignedNormal U altitude) = U.pi - angleSignedNormal U altitude) ∧
      (angleSignedNormal U altitude < -U.half_pi →
        m.rnd (-U.pi - angleSignedNormal U altitude)
          = -U.pi - angleSignedNormal U altitude)) := by
  obtain ⟨hlo, hhi⟩ := angleSignedNormal_range U altitude
  have hq := U.half_pi_eq
  have hp := U.pi_pos
  refine ⟨?_, ?_, ?_, ?_, ?_⟩
  · unfold angleHorizontalPolar normalizePolar
    simp only
    by_cases h1 : angleSignedNormal U altitude > U.half_pi
    · simp [h1]
    · by_cases h2 : angleSignedNormal U altitude < -U.half_pi
      · simp [h1, h2]
      · simp [h1, h2]
  · intro h
    unfold angleHorizontalPolar
    simp only
    rw [if_pos h]
  · intro h
    unfold angleHorizontalPolar
    simp only
    rw [if_neg (by linarith), if_pos h]
  · intro h1 h2
    unfold angleHorizontalPolar
    simp only
    rw [if_neg (by linarith), if_neg (by linarith)]
  · intro hrep
    exact ⟨fun h => reflect_north_exact m U _ hrep h hhi,
      fun h => reflect_south_exact m U _ hrep hlo h⟩

/-- C16, as stated, fails: at `a = -180` degrees the quotient `-1/2` is a tie, the even
integer `0` is chosen, and the remainder is `-180`, which is not strictly above
`-pi()`. -/
theorem C16_remainder_lower_bound_counterexample :
    remainder (-180) AngleUnit.Degrees.twice_pi = -AngleUnit.Degrees.pi ∧
    ¬ (-AngleUnit.Degrees.pi < remainder (-180) AngleUnit.Degrees.twice_pi) := by
  have h : remainder (-180) AngleUnit.Degrees.twice_pi = -AngleUnit.Degrees.pi :=
    (remainder_eq_neg_half_iff AngleUnit.Degrees (-180)).2
      ⟨0, by norm_num [AngleUnit.pi]⟩
  exact ⟨h, by rw [h]; exact lt_irrefl _⟩

/-- C16, amended: the remainder computed inside `angleSignedNormal` lies in the closed
interval from `-pi()` to `+pi()`, and it equals `-pi()` exactly when the angle is
`(4 * k - 1) * pi()` for an integer `k`, the ties whose even neighbour lies above. -/
theorem C16_remainder_closed_interval (U : AngleUnit) (a : ℚ) :
    (-U.pi ≤ remainder a U.twice_pi ∧ remainder a U.twice_pi ≤ U.pi) ∧
    (remainder a U.twice_pi = -U.pi ↔ ∃ k : ℤ, a = (4 * (k : ℚ) - 1) * U.pi) := by
  obtain ⟨h1, h2⟩ := remainder_bounds a U.twice_pi U.twice_pi_pos
  rw [U.twice_pi_eq] at h1 h2
  refine ⟨⟨?_, ?_⟩, remainder_eq_neg_half_iff U a⟩
  · rw [U.twice_pi_eq]; linarith
  · rw [U.twice_pi_eq]; linarith

/-- C17: in single precision `angleHorizontalPolar` is not idempotent at the floats azimuth
`-2^-16`, altitude `0` degrees: the first pass leaves azimuth `360`, a second pass turns it
into `0`.  In exact arithmetic the function is idempotent on every input. -/
theorem C17_angleHorizontalPolar_second_pass :
    roundSingle (-1 / 2 ^ 16) = -1 / 2 ^ 16 ∧
    angleHorizontalPolar Arith.binary32 AngleUnit.Degrees (-1 / 2 ^ 16) 0 = (360, 0) ∧
    angleHorizontalPolar Arith.binary32 AngleUnit.Degrees 360 0 = (0, 0) ∧
    (∀ (U : AngleUnit) (azimuth altitude : ℚ),
      angleHorizontalPolar Arith.exact U
          (angleHorizontalPolar Arith.exact U azimuth altitude).1
          (angleHorizontalPolar Arith.exact U azimuth altitude).2
        = angleHorizontalPolar Arith.exact U azimuth altitude) :=
  ⟨roundSingle_neg_small, angleHorizontalPolar_binary32_neg_small,
    angleHorizontalPolar_binary32_360, angleHorizontalPolar_exact_idempotent⟩
